import Mathlib

/-!
Verification development for the `prepack` byte-stream preprocessor
(source files `prepack.c` and `prepack_lite.c`).

Bytes are modelled as natural numbers below 256.  The C unsigned 8-bit
wraparound arithmetic (all filter arithmetic is performed on `int` and then
truncated to `uint8_t`) is made explicit through `byteOfInt`, which reduces
an integer modulo 256 into `[0, 256)`.  The global mutable variables of the
C program (`weight`, `previous`, `previousByte`, `secondPreviousByte`, and
the lane counter `d`) are collected in the `State` structure and threaded
explicitly through every operation.  Fallible decoding returns a
`DecodeResult`; the C program's out-of-bounds read of the candidate table
(undefined behaviour) is represented by a dedicated constructor.
-/

/-- Block size used by both passes (`#define blocksize 24576`). -/
def blocksize : Nat := 24576

/-- Stride multiplier for the sampling scan (`#define boost 24`). -/
def boost : Nat := 24

/-- Number of candidate encodings (`#define totalChannels 15`). -/
def totalChannels : Nat := 15

/-- Index separating the delta family from the adaptive family
(`#define breakpoint 10`). -/
def breakpoint : Nat := 10

/-- Learning-rate shift of the adaptive filter (`int rate = 6`). -/
def rate : Nat := 6

/-- The fixed candidate table `byte indexToChannel[]`. -/
def indexToChannel : List Nat := [0, 1, 2, 3, 4, 5, 6, 7, 8, 1, 2, 3, 4, 6, 8]

/-- Channel count of a candidate index (`indexToChannel[index]`). -/
def channelOf (index : Nat) : Nat := indexToChannel.getD index 0

/-- Truncation of a C `int` value to `uint8_t`: reduce modulo 256 into
`[0, 256)`. -/
def byteOfInt (x : Int) : Nat := (x % 256).toNat

/-- The global mutable state of the C program: the shared adaptive weight,
the delta history `previous[8]`, the adaptive histories `previousByte[8]`
and `secondPreviousByte[8]`, and the synthetic-modulo counter `d`. -/
structure State where
  weight : Int
  previous : List Nat
  previousByte : List Nat
  secondPreviousByte : List Nat
  d : Nat
deriving DecidableEq, Repr

/-- The freshly zeroed state: all histories zero, weight 0, counter 0.
This is the state of the C globals at program start. -/
def initState : State :=
  ⟨0, List.replicate 8 0, List.replicate 8 0, List.replicate 8 0, 0⟩

/-- Forward delta filter (`deltaEnc`): emit `previous[i] - b` (mod 256) and
store `b` as the new lane history. -/
def deltaEnc (b : Nat) (i : Nat) (s : State) : Nat × State :=
  let delta := byteOfInt ((s.previous.getD i 0 : Int) - (b : Int))
  (delta, { s with previous := s.previous.set i b })

/-- Inverse delta filter (`deltaDec`): recover `b = previous[i] - delta`
(mod 256) and store it as the new lane history. -/
def deltaDec (delta : Nat) (i : Nat) (s : State) : Nat × State :=
  let b := byteOfInt ((s.previous.getD i 0 : Int) - (delta : Int))
  (b, { s with previous := s.previous.set i b })

/-- Weight update of the adaptive filter (`updateWeight`): increment when the
residual is below 127, decrement when above, and step back from plus or minus
1281 to plus or minus 1280. -/
def updateWeight (err : Nat) (weight : Int) : Int :=
  let w1 := if err < 127 then weight + 1 else weight
  let w2 := if 127 < err then w1 - 1 else w1
  let w3 := if w2 = 1281 then w2 - 1 else w2
  if w3 = -1281 then w3 + 1 else w3

/-- Forward adaptive filter (`adaptiveDeltaEnc`).  `prediction` is the linear
extrapolation `2*previousByte[i] - secondPreviousByte[i]` truncated to a
byte, `w` is the arithmetic shift `weight >> rate` (floor division by 64),
and the emitted residual is `w + (prediction - b)` truncated to a byte.  The
weight is updated from the residual and the lane history is shifted, storing
the refined reconstruction `w + b`. -/
def adaptiveDeltaEnc (b : Nat) (i : Nat) (s : State) : Nat × State :=
  let p1 := s.previousByte.getD i 0
  let p2 := s.secondPreviousByte.getD i 0
  let prediction := byteOfInt ((p1 : Int) - (p2 : Int) + (p1 : Int))
  let w : Int := Int.fdiv s.weight ((2 : Int) ^ rate)
  let error := byteOfInt (w + ((prediction : Int) - (b : Int)))
  (error,
    { s with
      weight := updateWeight error s.weight
      secondPreviousByte := s.secondPreviousByte.set i p1
      previousByte := s.previousByte.set i (byteOfInt (w + (b : Int))) })

/-- Inverse adaptive filter (`adaptiveDeltaDec`): recompute `prediction` and
`w` exactly as the encoder does, recover `b = w + (prediction - error)`
truncated to a byte, and perform the same weight and history updates. -/
def adaptiveDeltaDec (error : Nat) (i : Nat) (s : State) : Nat × State :=
  let p1 := s.previousByte.getD i 0
  let p2 := s.secondPreviousByte.getD i 0
  let prediction := byteOfInt ((p1 : Int) - (p2 : Int) + (p1 : Int))
  let w : Int := Int.fdiv s.weight ((2 : Int) ^ rate)
  let b := byteOfInt (w + ((prediction : Int) - (error : Int)))
  (b,
    { s with
      weight := updateWeight error s.weight
      secondPreviousByte := s.secondPreviousByte.set i p1
      previousByte := s.previousByte.set i (byteOfInt (w + (b : Int))) })

/-- Synthetic modulo counter (`modulo`): increment `d`, wrap it to 0 when it
reaches `mx`, and return the new `d` together with the updated state. -/
def modulo (mx : Nat) (s : State) : Nat × State :=
  let d1 := s.d + 1
  let d2 := if d1 = mx then 0 else d1
  (d2, { s with d := d2 })

/-- Reset of the modulo counter (`resetModulo`). -/
def resetModulo (s : State) : State := { s with d := 0 }

/-- The reset loop run between the scan and the commit pass and at the start
of decoding: zero the three history arrays and the weight.  The counter `d`
is not touched by this loop. -/
def resetVars (s : State) : State :=
  { s with
    weight := 0
    previous := List.replicate 8 0
    previousByte := List.replicate 8 0
    secondPreviousByte := List.replicate 8 0 }

/-- One byte of the commit-encode pass for candidate `index`: candidates with
channel count 0 pass the byte through untouched; delta candidates
(`index < breakpoint`) route through the lane router and `deltaEnc`; adaptive
candidates route through the lane router and `adaptiveDeltaEnc`. -/
def encodeByte (index : Nat) (b : Nat) (s : State) : Nat × State :=
  let ch := channelOf index
  if index < breakpoint then
    if ch ≠ 0 then
      let m := modulo ch s
      deltaEnc b m.1 m.2
    else (b, s)
  else
    if ch ≠ 0 then
      let m := modulo ch s
      adaptiveDeltaEnc b m.1 m.2
    else (b, s)

/-- One byte of the decode pass for candidate `index`, mirroring
`encodeByte` with the inverse filters. -/
def decodeByte (index : Nat) (b : Nat) (s : State) : Nat × State :=
  let ch := channelOf index
  if index < breakpoint then
    if ch ≠ 0 then
      let m := modulo ch s
      deltaDec b m.1 m.2
    else (b, s)
  else
    if ch ≠ 0 then
      let m := modulo ch s
      adaptiveDeltaDec b m.1 m.2
    else (b, s)

/-- The commit-encode byte loop over the whole input.  The C program reads
the file in 24576-byte blocks, but no state is reset at block boundaries, so
the pass is exactly a stateful map over the byte sequence. -/
def encodeList (index : Nat) (data : List Nat) (s : State) : List Nat × State :=
  match data with
  | [] => ([], s)
  | b :: bs =>
    let r1 := encodeByte index b s
    let r2 := encodeList index bs r1.2
    (r1.1 :: r2.1, r2.2)

/-- The decode byte loop over the remainder of the stream, mirroring
`encodeList`. -/
def decodeList (index : Nat) (data : List Nat) (s : State) : List Nat × State :=
  match data with
  | [] => ([], s)
  | b :: bs =>
    let r1 := decodeByte index b s
    let r2 := decodeList index bs r1.2
    (r1.1 :: r2.1, r2.2)

/-- Full commit-encode output for candidate `index`: the 1-byte header
holding the index, followed by the forward transform of the data starting
from the freshly zeroed state. -/
def encodeCommit (index : Nat) (data : List Nat) : List Nat :=
  index :: (encodeList index data initState).1

/-- Result of decoding a stream.  The C decoder has no error path for a bad
header: it reads `indexToChannel[channel]` for whatever `channel` the first
`getc` produced (or for `EOF = -1` on an empty stream), which is an
out-of-bounds array read, undefined behaviour, whenever the value is not in
`[0, 14]`.  The embedding records that undefined access with the
`undefinedTableRead` constructor, carrying the index the C code uses. -/
inductive DecodeResult where
  | ok : List Nat → DecodeResult
  | undefinedTableRead : Int → DecodeResult
deriving DecidableEq, Repr

/-- The decode pass: read the header byte, look the candidate up in the
15-entry table (an in-bounds read only for headers 0 to 14; anything else is
the undefined out-of-bounds read described at `DecodeResult`), reset all
state, and inverse-transform the remaining bytes. -/
def decodeStream (input : List Nat) : DecodeResult :=
  match input with
  | [] => DecodeResult.undefinedTableRead (-1)
  | channel :: rest =>
    if channel < indexToChannel.length then
      DecodeResult.ok (decodeList channel rest initState).1
    else
      DecodeResult.undefinedTableRead (channel : Int)

/-- State of the scan pass: the filter state plus the per-candidate
256-entry histograms `long freq[totalChannels][256]`, modelled as a
function from candidate index and symbol to its count. -/
structure ScanState where
  fs : State
  freq : Nat → Nat → Nat

/-- Initial scan state: zeroed filter state and all-zero histograms. -/
def initScanState : ScanState := ⟨initState, fun _ _ => 0⟩

/-- Histogram increment (`count`): `freq[channel][current]++`. -/
def count (current : Nat) (channel : Nat) (freq : Nat → Nat → Nat) :
    Nat → Nat → Nat :=
  fun c s => if c = channel ∧ s = current then freq c s + 1 else freq c s

/-- One byte of the scan pass for candidate `index`.  The split between the
filter families is the parameter `bp`: `prepack.c` tests
`index < breakpoint` (10), while the scan of `prepack_lite.c` hard-codes
`index < 7`.  Channel count 0 counts the raw byte. -/
def scanByte (bp : Nat) (index : Nat) (b : Nat) (ss : ScanState) : ScanState :=
  let channel := channelOf index
  if channel = 0 then
    { ss with freq := count b index ss.freq }
  else if index < bp then
    let m := modulo channel ss.fs
    let r := deltaEnc b m.1 m.2
    { fs := r.2, freq := count r.1 index ss.freq }
  else
    let m := modulo channel ss.fs
    let r := adaptiveDeltaEnc b m.1 m.2
    { fs := r.2, freq := count r.1 index ss.freq }

/-- The inner byte loop of the scan for one candidate over one block. -/
def scanCandidateBytes (bp : Nat) (index : Nat) (block : List Nat)
    (ss : ScanState) : ScanState :=
  block.foldl (fun s b => scanByte bp index b s) ss

/-- One candidate's pass over one block: the byte loop followed by the
`resetModulo()` call that ends every candidate's pass.  Only the lane
counter `d` is reset; all filter histories and the weight are kept. -/
def scanCandidateBlock (bp : Nat) (index : Nat) (block : List Nat)
    (ss : ScanState) : ScanState :=
  let t := scanCandidateBytes bp index block ss
  { t with fs := resetModulo t.fs }

/-- The candidate loop of the scan over one block: all 15 candidates in
table order. -/
def scanBlock (bp : Nat) (block : List Nat) (ss : ScanState) : ScanState :=
  (List.range totalChannels).foldl
    (fun s index => scanCandidateBlock bp index block s) ss

/-- The scan's outer block loop over an already-determined list of scanned
blocks.  No state of any kind is reset between blocks. -/
def scanBlocksFold (bp : Nat) (blocks : List (List Nat)) (ss : ScanState) :
    ScanState :=
  blocks.foldl (fun s blk => scanBlock bp blk s) ss

/-- The blocks actually read by the scan's `fread`/`fseek` loop, starting at
stream position `pos`.  Each iteration reads up to `blocksize` bytes; a
short read sets the EOF flag and ends the loop; after a full read the loop
strides `blocksize * boost` bytes ahead when that still lands strictly
before end-of-file. -/
def scannedBlocks (input : List Nat) (pos : Nat) : List (List Nat) :=
  if pos < input.length then
    if input.length - pos < blocksize then
      [(input.drop pos).take (input.length - pos)]
    else
      if pos + blocksize + blocksize * boost < input.length then
        (input.drop pos).take blocksize ::
          scannedBlocks input (pos + blocksize + blocksize * boost)
      else
        (input.drop pos).take blocksize :: scannedBlocks input (pos + blocksize)
  else []
termination_by input.length - pos
decreasing_by
  · simp only [blocksize, boost] at *; omega
  · simp only [blocksize, boost] at *; omega

/-- Number of bytes actually read during the scan of `input`: the sum of the
scanned block sizes. -/
def sampledByteTotal (input : List Nat) : Nat :=
  ((scannedBlocks input 0).map List.length).sum

/-- The histograms produced by the scan of `input` with family split `bp`. -/
def scanFreq (bp : Nat) (input : List Nat) : Nat → Nat → Nat :=
  (scanBlocksFold bp (scannedBlocks input 0) initScanState).freq

/-- Total count of a candidate's histogram over the 256 symbol values. -/
def totalCount (freq : Nat → Nat → Nat) (channel : Nat) : Nat :=
  ∑ i ∈ Finset.range 256, freq channel i

/-- The symbol probability computed by `calcEntropy` in the code:
`freq[channel][i] / fileLength`, where `fileLength` is the FULL length of
the input file (set by `ftell` after seeking to the end), modelled in ℚ. -/
def charProbability (input : List Nat) (channel : Nat) (i : Nat) : ℚ :=
  (scanFreq breakpoint input channel i : ℚ) / (input.length : ℚ)

/-- Sum of the code's symbol probabilities of one candidate's histogram. -/
def probSum (input : List Nat) (channel : Nat) : ℚ :=
  ∑ i ∈ Finset.range 256, charProbability input channel i

/-- Modelled from the spec: the probability the specification prescribes,
`count / sampledByteTotal`, dividing by the number of bytes actually read
during the scan instead of the full file length.  Kept only to compare with
`charProbability`, which is what the code computes. -/
def charProbabilitySpec (input : List Nat) (channel : Nat) (i : Nat) : ℚ :=
  (scanFreq breakpoint input channel i : ℚ) / (sampledByteTotal input : ℚ)

/-- Sum of the spec's symbol probabilities of one candidate's histogram. -/
def probSumSpec (input : List Nat) (channel : Nat) : ℚ :=
  ∑ i ∈ Finset.range 256, charProbabilitySpec input channel i

/-- State after `k` successive calls of `modulo n` starting from the freshly
zeroed state (counter `d = 0`). -/
def moduloRun (n : Nat) : Nat → State
  | 0 => initState
  | k + 1 => (modulo n (moduloRun n k)).2

/-- Folding the adaptive weight update over a sequence of residual bytes. -/
def updateWeights (errs : List Nat) (w : Int) : Int :=
  errs.foldl (fun acc e => updateWeight e acc) w

/-- The candidate loop of the scan over one block, generalized to an
arbitrary candidate processing order.  The source's loop
`for (int index = 0; index < totalChannels; index++)` is the instance
`scanBlockOrder bp (List.range totalChannels)`; other orders exist only to
express that the accumulated histograms depend on the fixed table order. -/
def scanBlockOrder (bp : Nat) (order : List Nat) (block : List Nat)
    (ss : ScanState) : ScanState :=
  order.foldl (fun s index => scanCandidateBlock bp index block s) ss

/-- The scan's block loop under a generalized candidate order; see
`scanBlockOrder`. -/
def scanBlocksOrder (bp : Nat) (order : List Nat) (blocks : List (List Nat))
    (ss : ScanState) : ScanState :=
  blocks.foldl (fun s blk => scanBlockOrder bp order blk s) ss

/-! Basic facts about byte truncation. -/

theorem byteOfInt_lt (x : Int) : byteOfInt x < 256 := by
  unfold byteOfInt
  have h1 := Int.emod_nonneg x (by norm_num : (256 : Int) ≠ 0)
  have h2 := Int.emod_lt_of_pos x (by norm_num : (0 : Int) < 256)
  omega

theorem byteOfInt_cast (x : Int) : ((byteOfInt x : Nat) : Int) = x % 256 := by
  unfold byteOfInt
  exact Int.toNat_of_nonneg (Int.emod_nonneg x (by norm_num))

theorem byte_sub_cancel (p : Int) (b : Nat) (hb : b < 256) :
    byteOfInt (p - (byteOfInt (p - (b : Int)) : Nat)) = b := by
  unfold byteOfInt
  rw [Int.toNat_of_nonneg (Int.emod_nonneg _ (by norm_num))]
  omega

theorem byte_add_sub_cancel (w p : Int) (b : Nat) (hb : b < 256) :
    byteOfInt (w + (p - (byteOfInt (w + (p - (b : Int))) : Nat))) = b := by
  unfold byteOfInt
  rw [Int.toNat_of_nonneg (Int.emod_nonneg _ (by norm_num))]
  omega

/-! Round-trip of the two filter families and of the per-byte transcoder. -/

theorem delta_roundtrip (b i : Nat) (s : State) (hb : b < 256) :
    deltaDec (deltaEnc b i s).1 i s = (b, (deltaEnc b i s).2) := by
  simp only [deltaEnc, deltaDec]
  rw [byte_sub_cancel _ b hb]

theorem adaptive_roundtrip (b i : Nat) (s : State) (hb : b < 256) :
    adaptiveDeltaDec (adaptiveDeltaEnc b i s).1 i s = (b, (adaptiveDeltaEnc b i s).2) := by
  simp only [adaptiveDeltaEnc, adaptiveDeltaDec]
  rw [byte_add_sub_cancel _ _ b hb]

theorem byte_roundtrip (index b : Nat) (s : State) (hb : b < 256) :
    decodeByte index (encodeByte index b s).1 s = (b, (encodeByte index b s).2) := by
  unfold encodeByte decodeByte
  by_cases h1 : index < breakpoint <;> by_cases h2 : channelOf index = 0 <;>
    simp [h1, h2, delta_roundtrip _ _ _ hb, adaptive_roundtrip _ _ _ hb]

theorem list_roundtrip (index : Nat) (data : List Nat) :
    ∀ s : State, (∀ b ∈ data, b < 256) →
      decodeList index (encodeList index data s).1 s =
        (data, (encodeList index data s).2) := by
  induction data with
  | nil => intro s _; simp [encodeList, decodeList]
  | cons b bs ih =>
    intro s hb
    have h1 := byte_roundtrip index b s (hb b (by simp))
    have h2 := ih (encodeByte index b s).2 (fun x hx => hb x (by simp [hx]))
    simp only [encodeList, decodeList, h1, h2]

/-- C1: for every candidate index 0-14 and every byte sequence, decoding the
concatenation of the 1-byte header holding that index and the forward
transform of the sequence (both passes starting from the freshly zeroed
state) reproduces the original sequence exactly. -/
theorem c1_round_trip (index : Nat) (hidx : index < totalChannels)
    (data : List Nat) (hb : ∀ b ∈ data, b < 256) :
    decodeStream (encodeCommit index data) = DecodeResult.ok data := by
  have hlen : index < indexToChannel.length := by
    simpa [indexToChannel] using (by simpa [totalChannels] using hidx : index < 15)
  simp [encodeCommit, decodeStream, hlen, list_roundtrip index data initState hb]

/-- Witness for C1 at candidate 12 and a concrete 4-byte sequence. -/
theorem c1_round_trip_witness :
    decodeStream (encodeCommit 12 [1, 200, 3, 77]) = DecodeResult.ok [1, 200, 3, 77] :=
  c1_round_trip 12 (by decide) [1, 200, 3, 77] (by decide)

/-! Weight saturation. -/

theorem updateWeight_bounds (e : Nat) (w : Int) (h1 : -1280 ≤ w) (h2 : w ≤ 1280) :
    -1280 ≤ updateWeight e w ∧ updateWeight e w ≤ 1280 := by
  simp only [updateWeight]
  split_ifs <;> omega

theorem updateWeights_bounds (errs : List Nat) :
    ∀ w : Int, -1280 ≤ w → w ≤ 1280 →
      -1280 ≤ updateWeights errs w ∧ updateWeights errs w ≤ 1280 := by
  induction errs with
  | nil => intro w h1 h2; simpa [updateWeights] using ⟨h1, h2⟩
  | cons e es ih =>
    intro w h1 h2
    have h := updateWeight_bounds e w h1 h2
    simpa [updateWeights] using ih (updateWeight e w) h.1 h.2

theorem updateWeight_inc (e : Nat) (he : e < 127) (w : Int) (h1 : 0 ≤ w) (h2 : w ≤ 1280) :
    updateWeight e w = min (w + 1) 1280 := by
  simp only [updateWeight]
  split_ifs <;> omega

theorem updateWeight_dec (e : Nat) (he : 127 < e) (w : Int) (h1 : -1280 ≤ w) (h2 : w ≤ 0) :
    updateWeight e w = max (w - 1) (-1280) := by
  simp only [updateWeight]
  split_ifs <;> omega

theorem updateWeights_replicate_inc (e : Nat) (he : e < 127) :
    ∀ (k : Nat) (w : Int), 0 ≤ w → w ≤ 1280 →
      updateWeights (List.replicate k e) w = min (w + k) 1280 := by
  intro k
  induction k with
  | zero => intro w h1 h2; simp [updateWeights]; omega
  | succ k ih =>
    intro w h1 h2
    have step := updateWeight_inc e he w h1 h2
    have h := ih (updateWeight e w) (by omega) (by omega)
    simp only [List.replicate_succ, updateWeights, List.foldl_cons] at *
    rw [h, step]
    push_cast
    omega

theorem updateWeights_replicate_dec (e : Nat) (he : 127 < e) :
    ∀ (k : Nat) (w : Int), -1280 ≤ w → w ≤ 0 →
      updateWeights (List.replicate k e) w = max (w - k) (-1280) := by
  intro k
  induction k with
  | zero => intro w h1 h2; simp [updateWeights]; omega
  | succ k ih =>
    intro w h1 h2
    have step := updateWeight_dec e he w h1 h2
    have h := ih (updateWeight e w) (by omega) (by omega)
    simp only [List.replicate_succ, updateWeights, List.foldl_cons] at *
    rw [h, step]
    push_cast
    omega

/-- C5: starting from weight 0, the weight stays in [-1280, 1280] after
every update; a run of `k` residuals all below 127 drives it to exactly
`min k 1280` (so it reaches 1280 and holds, never resting at 1281), a run of
residuals above 127 drives it to exactly `-(min k 1280)`, and a residual
equal to 127 leaves any in-range weight unchanged. -/
theorem c5_weight_saturation (errs : List Nat) (k : Nat) (e1 e2 : Nat)
    (h1 : e1 < 127) (h2 : 127 < e2) (w : Int) (hw1 : -1280 ≤ w) (hw2 : w ≤ 1280) :
    (-1280 ≤ updateWeights errs 0 ∧ updateWeights errs 0 ≤ 1280) ∧
    updateWeights (List.replicate k e1) 0 = min (k : Int) 1280 ∧
    updateWeights (List.replicate k e2) 0 = -(min (k : Int) 1280) ∧
    updateWeight 127 w = w := by
  refine ⟨updateWeights_bounds errs 0 (by norm_num) (by norm_num), ?_, ?_, ?_⟩
  · rw [updateWeights_replicate_inc e1 h1 k 0 le_rfl (by norm_num)]
    omega
  · rw [updateWeights_replicate_dec e2 h2 k 0 (by norm_num) le_rfl]
    omega
  · simp only [updateWeight]
    split_ifs <;> omega

/-- Witness for C5 with a mixed residual list and a run length beyond the
saturation point. -/
theorem c5_weight_saturation_witness :
    ((-1280 ≤ updateWeights [5, 200, 127] 0 ∧ updateWeights [5, 200, 127] 0 ≤ 1280) ∧
    updateWeights (List.replicate 2000 0) 0 = min (2000 : Int) 1280 ∧
    updateWeights (List.replicate 2000 255) 0 = -(min (2000 : Int) 1280) ∧
    updateWeight 127 7 = 7) :=
  c5_weight_saturation [5, 200, 127] 2000 0 255 (by decide) (by decide) 7
    (by norm_num) (by norm_num)

/-! The synthetic modulo counter. -/

theorem moduloRun_d (n : Nat) (hn : 1 ≤ n) : ∀ k : Nat, (moduloRun n k).d = k % n := by
  intro k
  induction k with
  | zero => simp [moduloRun, initState]
  | succ k ih =>
    have hlt : k % n < n := Nat.mod_lt k hn
    simp only [moduloRun, modulo, ih]
    conv_rhs => rw [← Nat.mod_add_mod]
    by_cases h : k % n + 1 = n
    · simp [h]
    · have : k % n + 1 < n := by omega
      simp [h, Nat.mod_eq_of_lt this]

/-- C6: for every channel count `n` in 1..8, with the counter starting at 0,
the state after `k` calls holds `k % n`, the next (that is, the `(k+1)`-th)
call returns `(k + 1) % n` — so the returned sequence is
1, 2, ..., n-1, 0, 1, 2, ... and for `n = 1` every call returns 0 — and
every returned value lies in `[0, n-1]`. -/
theorem c6_modulo (n k : Nat) (h1 : 1 ≤ n) (h2 : n ≤ 8) :
    (moduloRun n k).d = k % n ∧
    (modulo n (moduloRun n k)).1 = (k + 1) % n ∧
    (modulo n (moduloRun n k)).1 < n := by
  have hrun := moduloRun_d n h1
  have hnext : (modulo n (moduloRun n k)).1 = (k + 1) % n := by
    have : (modulo n (moduloRun n k)).1 = (moduloRun n (k + 1)).d := rfl
    rw [this, hrun (k + 1)]
  exact ⟨hrun k, hnext, hnext ▸ Nat.mod_lt (k + 1) h1⟩

/-- Witness for C6 at channel count 3 after 4 calls: the 5th call returns
`5 % 3 = 2`. -/
theorem c6_modulo_witness :
    (moduloRun 3 4).d = 4 % 3 ∧
    (modulo 3 (moduloRun 3 4)).1 = (4 + 1) % 3 ∧
    (modulo 3 (moduloRun 3 4)).1 < 3 :=
  c6_modulo 3 4 (by decide) (by decide)

/-! Decoding with an out-of-range header. -/

/-- C7 counterexample: the claim says an out-of-range header is treated as a
decode error rather than being used to index the candidate table outside its
bounds.  In fact the code uses the raw header value to index the 15-entry
table: on the input stream `[15]` the decoder reads `indexToChannel[15]`,
one past the end of the table (undefined behaviour, recorded by the
`undefinedTableRead` constructor), and on the empty stream it reads
`indexToChannel[-1]` from the `EOF` return of `getc`.  There is no checked
decode-error path. -/
theorem c7_counterexample :
    decodeStream [15] = DecodeResult.undefinedTableRead 15 ∧
    decodeStream [] = DecodeResult.undefinedTableRead (-1) ∧
    indexToChannel.length = 15 ∧ ¬(15 < indexToChannel.length) := by
  decide

/-- C7 (amended): on decode, an out-of-range header value (a first byte
greater than 14, or the `EOF` value on empty input) is not detected: the
code uses it directly to index the 15-entry candidate table outside its
bounds — undefined behaviour, not a checked decode error.  Only headers
0-14 are decoded. -/
theorem c7_amended (c : Nat) (rest : List Nat) (h : indexToChannel.length ≤ c) :
    decodeStream (c :: rest) = DecodeResult.undefinedTableRead c := by
  simp [decodeStream, Nat.not_lt.mpr h]

/-- Witness for the amended C7 at header byte 20. -/
theorem c7_amended_witness :
    decodeStream (20 :: [1, 2]) = DecodeResult.undefinedTableRead 20 :=
  c7_amended 20 [1, 2] (by decide)

/-! The identity candidate. -/

theorem encodeList_zero (data : List Nat) : ∀ s : State, encodeList 0 data s = (data, s) := by
  induction data with
  | nil => intro s; simp [encodeList]
  | cons b bs ih =>
    intro s
    have hb : encodeByte 0 b s = (b, s) := by
      simp [encodeByte, channelOf, indexToChannel, breakpoint]
    simp [encodeList, hb, ih]

theorem decodeList_zero (data : List Nat) : ∀ s : State, decodeList 0 data s = (data, s) := by
  induction data with
  | nil => intro s; simp [decodeList]
  | cons b bs ih =>
    intro s
    have hb : decodeByte 0 b s = (b, s) := by
      simp [decodeByte, channelOf, indexToChannel, breakpoint]
    simp [decodeList, hb, ih]

/-- C8: candidate 0 is a strict pass-through in both directions: from any
state, commit encode with candidate 0 leaves every byte and the whole
filter/lane-router state unchanged (the full output being the header byte 0
followed by the input), and decode of a stream with header 0 reproduces the
remaining bytes unchanged, likewise touching no state. -/
theorem c8_identity (data rest : List Nat) (s : State) :
    encodeList 0 data s = (data, s) ∧
    decodeList 0 rest s = (rest, s) ∧
    encodeCommit 0 data = 0 :: data ∧
    decodeStream (0 :: rest) = DecodeResult.ok rest := by
  refine ⟨encodeList_zero data s, decodeList_zero rest s, ?_, ?_⟩
  · simp [encodeCommit, encodeList_zero]
  · simp [decodeStream, indexToChannel, decodeList_zero]

/-! Lane-counter behaviour during the scan. -/

theorem scanByte_d (bp index b : Nat) (ss : ScanState) (hc : channelOf index ≠ 0) :
    (scanByte bp index b ss).fs.d =
      if ss.fs.d + 1 = channelOf index then 0 else ss.fs.d + 1 := by
  unfold scanByte
  by_cases h : index < bp <;>
    simp [hc, h, modulo, deltaEnc, adaptiveDeltaEnc]

theorem scanCandidateBytes_d (bp index : Nat) (block : List Nat)
    (hc : channelOf index ≠ 0) :
    ∀ ss : ScanState, ss.fs.d < channelOf index →
      (scanCandidateBytes bp index block ss).fs.d =
        (ss.fs.d + block.length) % channelOf index := by
  induction block with
  | nil =>
    intro ss hd
    simp [scanCandidateBytes, Nat.mod_eq_of_lt hd]
  | cons b bs ih =>
    intro ss hd
    have hstep := scanByte_d bp index b ss hc
    have hd1 : (scanByte bp index b ss).fs.d = (ss.fs.d + 1) % channelOf index := by
      rw [hstep]
      by_cases h : ss.fs.d + 1 = channelOf index
      · simp [h]
      · rw [if_neg h, Nat.mod_eq_of_lt (by omega)]
    have hlt : (scanByte bp index b ss).fs.d < channelOf index := by
      rw [hd1]; exact Nat.mod_lt _ (by omega)
    have := ih (scanByte bp index b ss) hlt
    simp only [scanCandidateBytes, List.foldl_cons] at *
    rw [this, hd1, Nat.mod_add_mod, List.length_cons]
    ring_nf

theorem scanCandidateBlock_d (bp index : Nat) (block : List Nat) (ss : ScanState) :
    (scanCandidateBlock bp index block ss).fs.d = 0 := rfl

theorem modulo_fst (c : Nat) (s : State) :
    (modulo c s).1 = if s.d + 1 = c then 0 else s.d + 1 := rfl

theorem foldl_scanCandidateBlock_d (bp : Nat) (block : List Nat) :
    ∀ (L : List Nat) (ss : ScanState), L ≠ [] →
      ((L.foldl (fun s i => scanCandidateBlock bp i block s) ss).fs.d = 0) := by
  intro L
  induction L with
  | nil => intro ss h; exact absurd rfl h
  | cons i L ih =>
    intro ss _
    cases L with
    | nil => exact scanCandidateBlock_d bp i block ss
    | cons j L => exact ih (scanCandidateBlock bp i block ss) (by simp)

theorem scanBlock_d (bp : Nat) (block : List Nat) (ss : ScanState) :
    (scanBlock bp block ss).fs.d = 0 :=
  foldl_scanCandidateBlock_d bp block (List.range totalChannels) ss (by decide)

/-- C4 counterexample: lane assignment is NOT continuous across consecutive
scanned blocks.  Take the scan of two blocks, a full 24576-byte block of
bytes 7 followed by the 1-byte block `[3]`, and candidate 5 (channel
count 5).  The first conjunct computes the lane the scan actually assigns to
the first byte of candidate 5's pass on the second block: the counter was
reset (every candidate's pass on every block ends in `resetModulo`), so the
lane is 1.  The second conjunct computes the lane that would continue the
modular sequence from the counter state after candidate 5's byte loop on the
first block (`24576 % 5 = 1`): that continuation lane is 2.  They differ, so
the claimed continuity fails. -/
theorem c4_counterexample :
    (modulo (channelOf 5)
      ((List.range 5).foldl (fun s i => scanCandidateBlock 10 i [3] s)
        (scanBlock 10 (List.replicate blocksize 7) initScanState)).fs).1 = 1 ∧
    (modulo (channelOf 5)
      (scanCandidateBytes 10 5 (List.replicate blocksize 7)
        ((List.range 5).foldl
          (fun s i => scanCandidateBlock 10 i (List.replicate blocksize 7) s)
          initScanState)).fs).1 = 2 := by
  have hch : channelOf 5 = 5 := by decide
  constructor
  · have hd := foldl_scanCandidateBlock_d 10 [3] (List.range 5)
      (scanBlock 10 (List.replicate blocksize 7) initScanState) (by decide)
    rw [modulo_fst, hd, hch]
    norm_num
  · have hd := foldl_scanCandidateBlock_d 10 (List.replicate blocksize 7)
      (List.range 5) initScanState (by decide)
    have hbytes := scanCandidateBytes_d 10 5 (List.replicate blocksize 7)
      (by decide)
      ((List.range 5).foldl
        (fun s i => scanCandidateBlock 10 i (List.replicate blocksize 7) s)
        initScanState)
      (by rw [hd, hch]; omega)
    rw [hd, hch, List.length_replicate] at hbytes
    have h24 : (0 + blocksize) % 5 = 1 := by norm_num [blocksize]
    rw [h24] at hbytes
    rw [modulo_fst, hbytes, hch]
    norm_num

/-- C4 (amended): during the scan the lane counter is reset to 0 by the
`resetModulo()` that ends EVERY candidate's pass on EVERY block — not only
between candidates — so for each candidate the lane assignment restarts from
the beginning of the modular sequence at each block: every candidate's pass
starts with counter 0 and, over a block, steps the counter to
`block.length % channelCount`.  Continuity across blocks therefore holds
only when the previous block's length is divisible by the channel count
(true for full 24576-byte blocks with channel counts 1, 2, 3, 4, 6, 8, but
false for 5 and 7). -/
theorem c4_amended (bp index : Nat) (block : List Nat) (ss : ScanState)
    (hc : channelOf index ≠ 0) (hd : ss.fs.d = 0) :
    (scanCandidateBlock bp index block ss).fs.d = 0 ∧
    (scanCandidateBytes bp index block ss).fs.d = block.length % channelOf index := by
  refine ⟨scanCandidateBlock_d bp index block ss, ?_⟩
  have := scanCandidateBytes_d bp index block hc ss
    (by rw [hd]; omega)
  rw [this, hd, Nat.zero_add]

/-- Witness for the amended C4: candidate 2 over a 3-byte block ends its
byte loop with counter `3 % 2 = 1`, and its pass ends with the counter
reset to 0. -/
theorem c4_amended_witness :
    (scanCandidateBlock 10 2 [1, 2, 3] initScanState).fs.d = 0 ∧
    (scanCandidateBytes 10 2 [1, 2, 3] initScanState).fs.d = [1, 2, 3].length % channelOf 2 :=
  c4_amended 10 2 [1, 2, 3] initScanState (by decide) (by decide)

/-! The state handed from the scan to the commit pass. -/

theorem scanBlocksFold_d (bp : Nat) (blocks : List (List Nat)) :
    ∀ ss : ScanState, ss.fs.d = 0 → (scanBlocksFold bp blocks ss).fs.d = 0 := by
  induction blocks with
  | nil => intro ss h; simpa [scanBlocksFold] using h
  | cons blk blocks ih =>
    intro ss _
    simpa [scanBlocksFold] using ih (scanBlock bp blk ss) (scanBlock_d bp blk ss)

theorem resetVars_eq_init (s : State) (h : s.d = 0) : resetVars s = initState := by
  cases s
  simp_all [resetVars, initState]

/-- C9: at the start of the commit-encode pass the lane counter `d` is 0
even though no code explicitly resets it between scan and commit:
`resetModulo` ends every candidate's pass, so `d = 0` whenever the scan
finishes, and the reset loop that zeroes the histories and the weight then
reproduces exactly the freshly zeroed state — the very state the decoder
starts from (`d` is a zero-initialized global and decode performs no scan).
Encoder and decoder hence run their lane routers from identical states. -/
theorem c9_commit_start_state (bp : Nat) (blocks : List (List Nat)) :
    (scanBlocksFold bp blocks initScanState).fs.d = 0 ∧
    resetVars (scanBlocksFold bp blocks initScanState).fs = initState ∧
    initState.d = 0 := by
  have hd := scanBlocksFold_d bp blocks initScanState rfl
  exact ⟨hd, resetVars_eq_init _ hd, rfl⟩

/-! Filter-state carry-over between candidates and blocks during the scan. -/

set_option maxRecDepth 100000 in
/-- C10: during the scan, the delta history, the adaptive histories and the
shared weight are never reset between candidates or between blocks: the
`resetModulo` ending a candidate's pass touches only the lane counter (first
conjunct), consecutive blocks are processed by a plain fold with no reset in
between (second conjunct), and the candidate loop is exactly the table-order
instance of the order-generalized loop (third conjunct).  Consequently every
candidate's histogram other than candidate 0's depends on the fixed
processing order of the candidate table: the remaining conjuncts exhibit,
for each candidate index 1-14, a two-block input and an alternative
processing order under which that candidate's histogram differs from the one
the actual table order produces. -/
theorem c10_state_carryover :
    (∀ (bp index : Nat) (block : List Nat) (ss : ScanState),
      (scanCandidateBlock bp index block ss).fs.previous =
        (scanCandidateBytes bp index block ss).fs.previous ∧
      (scanCandidateBlock bp index block ss).fs.previousByte =
        (scanCandidateBytes bp index block ss).fs.previousByte ∧
      (scanCandidateBlock bp index block ss).fs.secondPreviousByte =
        (scanCandidateBytes bp index block ss).fs.secondPreviousByte ∧
      (scanCandidateBlock bp index block ss).fs.weight =
        (scanCandidateBytes bp index block ss).fs.weight ∧
      (scanCandidateBlock bp index block ss).freq =
        (scanCandidateBytes bp index block ss).freq) ∧
    (∀ (bp : Nat) (b1 b2 : List Nat) (ss : ScanState),
      scanBlocksFold bp [b1, b2] ss = scanBlock bp b2 (scanBlock bp b1 ss)) ∧
    (∀ (bp : Nat) (block : List Nat) (ss : ScanState),
      scanBlock bp block ss = scanBlockOrder bp (List.range totalChannels) block ss) ∧
    ((scanBlocksFold 10 [[5, 9], [3, 7]] initScanState).freq 1 4 ≠
      (scanBlocksOrder 10 [0, 2, 1, 3, 4, 5, 6, 7, 8, 9, 10, 11, 12, 13, 14]
        [[5, 9], [3, 7]] initScanState).freq 1 4 ∧
    (scanBlocksFold 10 [[5, 9], [3, 7]] initScanState).freq 2 0 ≠
      (scanBlocksOrder 10 [2, 0, 1, 3, 4, 5, 6, 7, 8, 9, 10, 11, 12, 13, 14]
        [[5, 9], [3, 7]] initScanState).freq 2 0 ∧
    (scanBlocksFold 10 [[5, 9], [3, 7]] initScanState).freq 3 0 ≠
      (scanBlocksOrder 10 [3, 0, 1, 2, 4, 5, 6, 7, 8, 9, 10, 11, 12, 13, 14]
        [[5, 9], [3, 7]] initScanState).freq 3 0 ∧
    (scanBlocksFold 10 [[5, 9], [3, 7]] initScanState).freq 4 0 ≠
      (scanBlocksOrder 10 [4, 0, 1, 2, 3, 5, 6, 7, 8, 9, 10, 11, 12, 13, 14]
        [[5, 9], [3, 7]] initScanState).freq 4 0 ∧
    (scanBlocksFold 10 [[5, 9], [3, 7]] initScanState).freq 5 0 ≠
      (scanBlocksOrder 10 [5, 0, 1, 2, 3, 4, 6, 7, 8, 9, 10, 11, 12, 13, 14]
        [[5, 9], [3, 7]] initScanState).freq 5 0 ∧
    (scanBlocksFold 10 [[5, 9], [3, 7]] initScanState).freq 6 0 ≠
      (scanBlocksOrder 10 [6, 0, 1, 2, 3, 4, 5, 7, 8, 9, 10, 11, 12, 13, 14]
        [[5, 9], [3, 7]] initScanState).freq 6 0 ∧
    (scanBlocksFold 10 [[5, 9], [3, 7]] initScanState).freq 7 0 ≠
      (scanBlocksOrder 10 [7, 0, 1, 2, 3, 4, 5, 6, 8, 9, 10, 11, 12, 13, 14]
        [[5, 9], [3, 7]] initScanState).freq 7 0 ∧
    (scanBlocksFold 10 [[5, 9], [3, 7]] initScanState).freq 8 0 ≠
      (scanBlocksOrder 10 [8, 0, 1, 2, 3, 4, 5, 6, 7, 9, 10, 11, 12, 13, 14]
        [[5, 9], [3, 7]] initScanState).freq 8 0 ∧
    (scanBlocksFold 10 [[5, 9], [3, 7]] initScanState).freq 9 4 ≠
      (scanBlocksOrder 10 [9, 0, 1, 2, 3, 4, 5, 6, 7, 8, 10, 11, 12, 13, 14]
        [[5, 9], [3, 7]] initScanState).freq 9 4 ∧
    (scanBlocksFold 10 [[5, 9], [3, 7]] initScanState).freq 10 0 ≠
      (scanBlocksOrder 10 [14, 13, 12, 11, 10, 9, 8, 7, 6, 5, 4, 3, 2, 1, 0]
        [[5, 9], [3, 7]] initScanState).freq 10 0 ∧
    (scanBlocksFold 10 [[5, 9], [3, 7]] initScanState).freq 11 0 ≠
      (scanBlocksOrder 10 [11, 0, 1, 2, 3, 4, 5, 6, 7, 8, 9, 10, 12, 13, 14]
        [[5, 9], [3, 7]] initScanState).freq 11 0 ∧
    (scanBlocksFold 10 [[5, 9], [3, 7]] initScanState).freq 12 0 ≠
      (scanBlocksOrder 10 [12, 0, 1, 2, 3, 4, 5, 6, 7, 8, 9, 10, 11, 13, 14]
        [[5, 9], [3, 7]] initScanState).freq 12 0 ∧
    (scanBlocksFold 10 [[5, 9], [3, 7]] initScanState).freq 13 0 ≠
      (scanBlocksOrder 10 [13, 0, 1, 2, 3, 4, 5, 6, 7, 8, 9, 10, 11, 12, 14]
        [[5, 9], [3, 7]] initScanState).freq 13 0 ∧
    (scanBlocksFold 10 [[5, 9], [3, 7]] initScanState).freq 14 0 ≠
      (scanBlocksOrder 10 [14, 0, 1, 2, 3, 4, 5, 6, 7, 8, 9, 10, 11, 12, 13]
        [[5, 9], [3, 7]] initScanState).freq 14 0) := by
  refine ⟨fun bp index block ss => ⟨rfl, rfl, rfl, rfl, rfl⟩,
    fun bp b1 b2 ss => rfl, fun bp block ss => rfl, ?_⟩
  decide

/-! Divergence between the two source variants. -/

set_option maxRecDepth 100000 in
/-- C3: the two variants do NOT accumulate identical scan histograms.  On
the single-byte input `[1]`, candidate index 7 is filtered with the delta
family by `prepack.c` (split at `breakpoint = 10`), counting residual 0, but
with the adaptive family by the scan of `prepack_lite.c` (hard-coded split
at 7, contradicting that file's own table comment and its own encode path),
counting residual 255.  The histograms, and hence the claimed equality of
the two variants' scans, differ. -/
theorem c3_scan_divergence :
    (scanBlock breakpoint [1] initScanState).freq 7 0 = 1 ∧
    (scanBlock breakpoint [1] initScanState).freq 7 255 = 0 ∧
    (scanBlock 7 [1] initScanState).freq 7 0 = 0 ∧
    (scanBlock 7 [1] initScanState).freq 7 255 = 1 := by
  decide

/-! Histogram totals accumulated by the scan. -/

theorem totalCount_count_self (f : Nat → Nat → Nat) (b c : Nat) (hb : b < 256) :
    totalCount (count b c f) c = totalCount f c + 1 := by
  have key : ∀ i, count b c f c i = f c i + (if i = b then 1 else 0) := by
    intro i
    unfold count
    by_cases h : i = b <;> simp [h]
  unfold totalCount
  calc ∑ i ∈ Finset.range 256, count b c f c i
      = ∑ i ∈ Finset.range 256, (f c i + if i = b then 1 else 0) :=
        Finset.sum_congr rfl (fun i _ => key i)
    _ = (∑ i ∈ Finset.range 256, f c i) + ∑ i ∈ Finset.range 256, (if i = b then 1 else 0) :=
        Finset.sum_add_distrib
    _ = (∑ i ∈ Finset.range 256, f c i) + 1 := by
        rw [Finset.sum_ite_eq' (Finset.range 256) b (fun _ => 1)]
        simp [hb]

theorem totalCount_count_other (f : Nat → Nat → Nat) (b c c2 : Nat) (h : c2 ≠ c) :
    totalCount (count b c2 f) c = totalCount f c := by
  unfold totalCount
  apply Finset.sum_congr rfl
  intro i _
  have hcc : ¬(c = c2) := fun hh => h hh.symm
  unfold count
  simp [hcc]

theorem deltaEnc_fst_lt (b i : Nat) (s : State) : (deltaEnc b i s).1 < 256 :=
  byteOfInt_lt _

theorem adaptiveDeltaEnc_fst_lt (b i : Nat) (s : State) : (adaptiveDeltaEnc b i s).1 < 256 :=
  byteOfInt_lt _

theorem totalCount_scanByte_hit (bp index b : Nat) (ss : ScanState)
    (hb : channelOf index = 0 → b < 256) :
    totalCount (scanByte bp index b ss).freq index = totalCount ss.freq index + 1 := by
  have hfreq : ∃ sym, (scanByte bp index b ss).freq = count sym index ss.freq ∧ sym < 256 := by
    simp only [scanByte]
    split_ifs with h1 h2
    · exact ⟨b, rfl, hb h1⟩
    · exact ⟨_, rfl, deltaEnc_fst_lt _ _ _⟩
    · exact ⟨_, rfl, adaptiveDeltaEnc_fst_lt _ _ _⟩
  obtain ⟨sym, hfreq, hsym⟩ := hfreq
  rw [hfreq]
  exact totalCount_count_self ss.freq sym index hsym

theorem totalCount_scanByte_miss (bp index c b : Nat) (ss : ScanState) (h : index ≠ c) :
    totalCount (scanByte bp index b ss).freq c = totalCount ss.freq c := by
  have hfreq : ∃ sym, (scanByte bp index b ss).freq = count sym index ss.freq := by
    simp only [scanByte]
    split_ifs <;> exact ⟨_, rfl⟩
  obtain ⟨sym, hfreq⟩ := hfreq
  rw [hfreq]
  exact totalCount_count_other _ _ _ _ h

theorem totalCount_scanCandidateBytes_hit (bp index : Nat) (block : List Nat) :
    ∀ ss : ScanState, (channelOf index = 0 → ∀ b ∈ block, b < 256) →
      totalCount (scanCandidateBytes bp index block ss).freq index =
        totalCount ss.freq index + block.length := by
  induction block with
  | nil => intro ss _; simp [scanCandidateBytes]
  | cons b bs ih =>
    intro ss hb
    have h1 := totalCount_scanByte_hit bp index b ss (fun h0 => hb h0 b (by simp))
    have h2 := ih (scanByte bp index b ss) (fun h0 x hx => hb h0 x (by simp [hx]))
    simp only [scanCandidateBytes, List.foldl_cons] at *
    rw [h2, h1, List.length_cons]
    omega

theorem totalCount_scanCandidateBytes_miss (bp index c : Nat) (block : List Nat)
    (h : index ≠ c) :
    ∀ ss : ScanState,
      totalCount (scanCandidateBytes bp index block ss).freq c = totalCount ss.freq c := by
  induction block with
  | nil => intro ss; simp [scanCandidateBytes]
  | cons b bs ih =>
    intro ss
    have h1 := totalCount_scanByte_miss bp index c b ss h
    have h2 := ih (scanByte bp index b ss)
    simp only [scanCandidateBytes, List.foldl_cons] at *
    rw [h2, h1]

theorem totalCount_scanCandidateBlock_hit (bp index : Nat) (block : List Nat)
    (ss : ScanState) (hb : channelOf index = 0 → ∀ b ∈ block, b < 256) :
    totalCount (scanCandidateBlock bp index block ss).freq index =
      totalCount ss.freq index + block.length := by
  have hf : (scanCandidateBlock bp index block ss).freq =
      (scanCandidateBytes bp index block ss).freq := rfl
  rw [hf]
  exact totalCount_scanCandidateBytes_hit bp index block ss hb

theorem totalCount_scanCandidateBlock_miss (bp index c : Nat) (block : List Nat)
    (ss : ScanState) (h : index ≠ c) :
    totalCount (scanCandidateBlock bp index block ss).freq c = totalCount ss.freq c := by
  have hf : (scanCandidateBlock bp index block ss).freq =
      (scanCandidateBytes bp index block ss).freq := rfl
  rw [hf]
  exact totalCount_scanCandidateBytes_miss bp index c block h ss

theorem totalCount_foldl_count (bp : Nat) (block : List Nat) (c : Nat)
    (hb : channelOf c = 0 → ∀ b ∈ block, b < 256) :
    ∀ (L : List Nat) (ss : ScanState),
      totalCount ((L.foldl (fun s i => scanCandidateBlock bp i block s) ss).freq) c =
        totalCount ss.freq c + block.length * L.count c := by
  intro L
  induction L with
  | nil => intro ss; simp
  | cons i L ih =>
    intro ss
    simp only [List.foldl_cons]
    by_cases h : i = c
    · rw [h]
      have hcount : (c :: L).count c = L.count c + 1 := by simp
      rw [ih (scanCandidateBlock bp c block ss),
        totalCount_scanCandidateBlock_hit bp c block ss hb, hcount, Nat.mul_add,
        Nat.mul_one]
      ring
    · have hcount : (i :: L).count c = L.count c :=
        List.count_cons_of_ne (fun hh => h hh.symm) L
      rw [ih (scanCandidateBlock bp i block ss),
        totalCount_scanCandidateBlock_miss bp i c block ss h, hcount]

theorem totalCount_scanBlock_all (bp : Nat) (block : List Nat) (ss : ScanState)
    (c : Nat) (hc : c < totalChannels) (hb : channelOf c = 0 → ∀ b ∈ block, b < 256) :
    totalCount (scanBlock bp block ss).freq c = totalCount ss.freq c + block.length := by
  unfold scanBlock
  rw [totalCount_foldl_count bp block c hb (List.range totalChannels) ss,
    List.count_eq_one_of_mem (List.nodup_range totalChannels) (List.mem_range.mpr hc),
    Nat.mul_one]

theorem totalCount_scanBlocksFold_all (bp : Nat) (blocks : List (List Nat)) (c : Nat)
    (hc : c < totalChannels) :
    ∀ ss : ScanState, (channelOf c = 0 → ∀ blk ∈ blocks, ∀ b ∈ blk, b < 256) →
      totalCount (scanBlocksFold bp blocks ss).freq c =
        totalCount ss.freq c + (blocks.map List.length).sum := by
  induction blocks with
  | nil => intro ss _; simp [scanBlocksFold]
  | cons blk blocks ih =>
    intro ss hb
    have h1 := totalCount_scanBlock_all bp blk ss c hc (fun h0 => hb h0 blk (by simp))
    have h2 := ih (scanBlock bp blk ss) (fun h0 x hx => hb h0 x (by simp [hx]))
    simp only [scanBlocksFold, List.foldl_cons] at *
    rw [h2, h1, List.map_cons, List.sum_cons]
    omega

theorem scannedBlocks_mem :
    ∀ (k : Nat) (input : List Nat) (pos : Nat), input.length - pos ≤ k →
      ∀ blk ∈ scannedBlocks input pos, ∀ b ∈ blk, b ∈ input := by
  intro k
  induction k with
  | zero =>
    intro input pos hk blk hblk b _
    rw [scannedBlocks, if_neg (by omega)] at hblk
    simp at hblk
  | succ k ih =>
    intro input pos hk blk hblk b hb
    have hsub : ∀ n : Nat, ((input.drop pos).take n).Sublist input :=
      fun n => (List.take_sublist _ _).trans (List.drop_sublist _ _)
    have hbs : 0 < blocksize := by norm_num [blocksize]
    rw [scannedBlocks] at hblk
    by_cases h1 : pos < input.length
    · rw [if_pos h1] at hblk
      by_cases h2 : input.length - pos < blocksize
      · rw [if_pos h2] at hblk
        simp only [List.mem_singleton] at hblk
        subst hblk
        exact (hsub _).subset hb
      · rw [if_neg h2] at hblk
        by_cases h3 : pos + blocksize + blocksize * boost < input.length
        · rw [if_pos h3] at hblk
          rcases List.mem_cons.mp hblk with h | h
          · subst h; exact (hsub _).subset hb
          · exact ih input (pos + blocksize + blocksize * boost) (by omega) blk h b hb
        · rw [if_neg h3] at hblk
          rcases List.mem_cons.mp hblk with h | h
          · subst h; exact (hsub _).subset hb
          · exact ih input (pos + blocksize) (by omega) blk h b hb
    · rw [if_neg h1] at hblk
      simp at hblk

theorem totalCount_scanFreq_all (input : List Nat) (c : Nat) (hc : c < totalChannels)
    (hb : ∀ b ∈ input, b < 256) :
    totalCount (scanFreq breakpoint input) c = sampledByteTotal input := by
  unfold scanFreq sampledByteTotal
  rw [totalCount_scanBlocksFold_all breakpoint (scannedBlocks input 0) c hc initScanState
    (fun _ blk hblk b hbm =>
      hb b (scannedBlocks_mem input.length input 0 (by omega) blk hblk b hbm))]
  simp [totalCount, initScanState]

/-! The probability sums of the entropy estimator. -/

theorem probSum_eq (input : List Nat) (c : Nat) :
    probSum input c =
      (totalCount (scanFreq breakpoint input) c : ℚ) / (input.length : ℚ) := by
  unfold probSum charProbability totalCount
  rw [Nat.cast_sum, Finset.sum_div]

theorem probSumSpec_eq (input : List Nat) (c : Nat) :
    probSumSpec input c =
      (totalCount (scanFreq breakpoint input) c : ℚ) / (sampledByteTotal input : ℚ) := by
  unfold probSumSpec charProbabilitySpec totalCount
  rw [Nat.cast_sum, Finset.sum_div]

theorem scannedBlocks_two (input : List Nat) (h : input.length = 614401) :
    scannedBlocks input 0 = [(input.drop 0).take blocksize, (input.drop 614400).take 1] := by
  rw [scannedBlocks, if_pos (by omega), if_neg (by rw [h]; norm_num [blocksize]),
    if_pos (by rw [h]; norm_num [blocksize, boost])]
  have hpos : 0 + blocksize + blocksize * boost = 614400 := by norm_num [blocksize, boost]
  rw [hpos, scannedBlocks, if_pos (by omega),
    if_pos (by rw [h]; norm_num [blocksize]), h]

/-- C2 counterexample: the code's symbol probabilities divide by the FULL
file length, not by the number of bytes actually read.  On a 614401-byte
input (all zero bytes) the scan reads one full 24576-byte block, strides
`24576 * 24` bytes ahead, and reads the single remaining byte, so only
24577 bytes are sampled; yet `calcEntropy` divides every histogram count by
`fileLength = 614401`.  The probabilities of candidate 0's histogram
therefore sum to `24577 / 614401 ≠ 1` even though the sample is non-empty,
refuting the claim; dividing by `sampledByteTotal` as the spec prescribes
would make them sum to 1. -/
theorem c2_counterexample :
    sampledByteTotal (List.replicate 614401 0) = 24577 ∧
    (List.replicate 614401 (0 : Nat)).length = 614401 ∧
    probSum (List.replicate 614401 0) 0 = (24577 : ℚ) / 614401 ∧
    probSum (List.replicate 614401 0) 0 ≠ 1 ∧
    probSumSpec (List.replicate 614401 0) 0 = 1 := by
  have h : (List.replicate 614401 (0 : Nat)).length = 614401 := List.length_replicate 614401 0
  have hblocks := scannedBlocks_two (List.replicate 614401 0) h
  have hsbt : sampledByteTotal (List.replicate 614401 0) = 24577 := by
    unfold sampledByteTotal
    rw [hblocks]
    simp only [List.map_cons, List.map_nil, List.sum_cons, List.sum_nil,
      List.length_take, List.length_drop, List.length_replicate]
    norm_num [blocksize]
  have hb256 : ∀ b ∈ List.replicate 614401 (0 : Nat), b < 256 := by
    intro b hbm
    rw [List.eq_of_mem_replicate hbm]
    norm_num
  have htc := totalCount_scanFreq_all (List.replicate 614401 0) 0
    (by norm_num [totalChannels]) hb256
  have hps := probSum_eq (List.replicate 614401 0) 0
  rw [htc, hsbt, h] at hps
  have hspec := probSumSpec_eq (List.replicate 614401 0) 0
  rw [htc, hsbt] at hspec
  refine ⟨hsbt, h, ?_, ?_, ?_⟩
  · rw [hps]; norm_num
  · rw [hps]; norm_num
  · rw [hspec]; norm_num

/-- C2 (amended): in the entropy computation the probability of every symbol
is its histogram count divided by the FULL file length (`fileLength`, set by
seeking to the end of the input), not by the number of bytes actually read;
consequently, for EVERY candidate index 0-14, the probabilities of that
candidate's histogram sum to `sampledByteTotal / fileLength`, which equals 1
exactly when the scan read the whole file (no striding, as for any file of
at most 614400 bytes) and is smaller than 1 when blocks were skipped. -/
theorem c2_amended (input : List Nat) (c : Nat) (hc : c < totalChannels)
    (hb : ∀ b ∈ input, b < 256) :
    probSum input c = (sampledByteTotal input : ℚ) / (input.length : ℚ) ∧
    (sampledByteTotal input = input.length → input ≠ [] → probSum input c = 1) := by
  have htc := totalCount_scanFreq_all input c hc hb
  have hps := probSum_eq input c
  rw [htc] at hps
  refine ⟨hps, fun heq hne => ?_⟩
  rw [hps, heq]
  have hlen : (input.length : ℚ) ≠ 0 := by
    have : input.length ≠ 0 := fun hz => hne (List.length_eq_zero.mp hz)
    exact_mod_cast this
  exact div_self hlen

/-- Witness for the amended C2 at the adaptive candidate 11 on the 3-byte
input `[1, 2, 3]`, which is read in full by the scan. -/
theorem c2_amended_witness :
    probSum [1, 2, 3] 11 = (sampledByteTotal [1, 2, 3] : ℚ) / (([1, 2, 3] : List Nat).length : ℚ) ∧
    (sampledByteTotal [1, 2, 3] = ([1, 2, 3] : List Nat).length →
      ([1, 2, 3] : List Nat) ≠ [] → probSum [1, 2, 3] 11 = 1) :=
  c2_amended [1, 2, 3] 11 (by decide) (by decide)
